import Mathlib

/-!
Shallow embedding, in Lean 4, of parsing and cryptographic helper routines
of the go-i2p repository: the variable-width big-endian Length codec
(lib/common/length.go), the legacy DSA adapter (lib/crypto/dsa/dsa.go),
the KeysAndCert descriptor parser, the NTCP2 session helpers and the
CBC ephemeral-key obfuscation layer (lib/transport/ntcp).
Bytes are modelled as natural numbers below 256 and byte slices as lists;
machine integers carry explicit reductions modulo powers of two.
-/

set_option maxRecDepth 40000

namespace GoI2P

/-! ## Byte-level helpers shared by several components -/

/-- Big-endian read of a byte list into a natural number: the semantics of
both binary.BigEndian.Uint64 (applied to the first eight bytes elsewhere)
and big.Int.SetBytes. -/
def beBytesToNat (l : List Nat) : Nat :=
  l.foldl (fun acc b => acc * 256 + b) 0

/-- binary.BigEndian.PutUint64: the eight big-endian bytes of a value
already reduced below 2^64 by the callers. -/
def putUint64BE (v : Nat) : List Nat :=
  [v / 2 ^ 56 % 256, v / 2 ^ 48 % 256, v / 2 ^ 40 % 256, v / 2 ^ 32 % 256,
   v / 2 ^ 24 % 256, v / 2 ^ 16 % 256, v / 2 ^ 8 % 256, v % 256]

/-- Go int64 reading of a uint64 bit pattern: the int(...) cast in Length
(Go int is 64 bits wide on the targets this repository builds for). -/
def toInt64 (n : Nat) : Int :=
  if n < 2 ^ 63 then (n : Int) else (n : Int) - 2 ^ 64

/-- lib/common/integer.go: total byte length of an I2P integer. -/
def INTEGER_SIZE : Nat := 8

/-! ## lib/common/length.go -/

/-- Length (lib/common/length.go): left-pad the input with zero bytes to
eight bytes when shorter, read the first eight bytes big-endian as a
uint64, cast to int. -/
def Length (number : List Nat) : Int :=
  let padded :=
    if number.length < INTEGER_SIZE then
      List.replicate (INTEGER_SIZE - number.length) 0 ++ number
    else number
  toInt64 (beBytesToNat (padded.take 8))

/-- The index computed by the range loop inside LengthBytes: the position
of the first nonzero byte, or the final index when every byte is zero
(the loop writes index on each iteration and breaks at the first nonzero
byte). -/
def firstNZIndex : List Nat → Nat
  | [] => 0
  | [_] => 0
  | x :: y :: rest => if x ≠ 0 then 0 else firstNZIndex (y :: rest) + 1

/-- LengthBytes (lib/common/length.go): write uint64(value) big-endian
into eight bytes, strip the leading zero bytes, and step the start index
back by one when a single byte would remain so the result is at least two
bytes long. -/
def LengthBytes (value : Nat) : List Nat :=
  let onumber := putUint64BE (value % 2 ^ 64)
  let index := firstNZIndex onumber
  let index2 := if (onumber.drop index).length = 1 then index - 1 else index
  onumber.drop index2

/-! ### Lemmas about the Length codec -/

theorem firstNZIndex_lt_length : ∀ l : List Nat, l ≠ [] → firstNZIndex l < l.length := by
  intro l
  induction l with
  | nil => intro h; exact absurd rfl h
  | cons x rest ih =>
    intro _
    cases rest with
    | nil => simp [firstNZIndex]
    | cons y t =>
      by_cases hx : x ≠ 0
      · simp [firstNZIndex, hx]
      · have h2 := ih (by simp)
        simp only [List.length_cons] at h2 ⊢
        simp only [firstNZIndex, hx, if_false]
        omega

theorem firstNZIndex_zero_before : ∀ (l : List Nat) (j : Nat),
    j < firstNZIndex l → l.getD j 0 = 0 := by
  intro l
  induction l with
  | nil => intro j h; simp [firstNZIndex] at h
  | cons x rest ih =>
    intro j h
    cases rest with
    | nil => simp [firstNZIndex] at h
    | cons y t =>
      by_cases hx : x ≠ 0
      · simp [firstNZIndex, hx] at h
      · simp only [firstNZIndex, hx, if_false] at h
        cases j with
        | zero => simpa using (by omega : x = 0)
        | succ j => exact ih j (by omega)

theorem replicate_append_drop (l : List Nat) :
    ∀ i : Nat, i ≤ l.length → (∀ j, j < i → l.getD j 0 = 0) →
      List.replicate i 0 ++ l.drop i = l := by
  induction l with
  | nil =>
    intro i hi _
    simp at hi
    simp [hi]
  | cons x rest ih =>
    intro i hi hz
    cases i with
    | zero => simp
    | succ i =>
      have hx : x = 0 := by simpa using hz 0 (by omega)
      have hrest : List.replicate i 0 ++ rest.drop i = rest :=
        ih i (by simpa using hi) (fun j hj => by simpa using hz (j + 1) (by omega))
      simp [List.replicate_succ, hx, hrest]

theorem beBytesToNat_putUint64BE (v : Nat) (hv : v < 2 ^ 64) :
    beBytesToNat (putUint64BE v) = v := by
  simp only [beBytesToNat, putUint64BE, List.foldl]
  omega

/-- C10. For every non-negative value representable in 63 bits, decoding
the variable-width big-endian encoding produced by LengthBytes returns the
value: Length (LengthBytes v) = v. -/
theorem Length_LengthBytes_roundtrip (v : Nat) (hv : v < 2 ^ 63) :
    Length (LengthBytes v) = (v : Int) := by
  have hv64 : v < 2 ^ 64 := by omega
  have hmod : v % 2 ^ 64 = v := Nat.mod_eq_of_lt hv64
  set b := putUint64BE v with hb
  have hblen : b.length = 8 := by simp [hb, putUint64BE]
  have hbne : b ≠ [] := by
    intro h
    rw [h] at hblen
    simp at hblen
  have hidx : firstNZIndex b < 8 := by
    have := firstNZIndex_lt_length b hbne
    omega
  set i0 := firstNZIndex b with hi0
  set i2 := if (b.drop i0).length = 1 then i0 - 1 else i0 with hi2
  have hi2le : i2 ≤ i0 := by
    rw [hi2]
    split <;> omega
  have hi2lt : i2 < 8 := by omega
  have hLB : LengthBytes v = b.drop i2 := by
    simp only [LengthBytes, hmod, ← hb, ← hi0, ← hi2]
  have hdroplen : (b.drop i2).length = 8 - i2 := by
    simp [List.length_drop, hblen]
  have hzero : ∀ j, j < i2 → b.getD j 0 = 0 := by
    intro j hj
    exact firstNZIndex_zero_before b j (by omega)
  have hrec : List.replicate i2 0 ++ b.drop i2 = b :=
    replicate_append_drop b i2 (by omega) hzero
  have hpadded :
      (if (b.drop i2).length < INTEGER_SIZE then
        List.replicate (INTEGER_SIZE - (b.drop i2).length) 0 ++ b.drop i2
      else b.drop i2) = b := by
    by_cases hcase : (b.drop i2).length < INTEGER_SIZE
    · rw [if_pos hcase]
      have : INTEGER_SIZE - (b.drop i2).length = i2 := by
        simp only [INTEGER_SIZE] at *
        omega
      rw [this, hrec]
    · rw [if_neg hcase]
      simp only [INTEGER_SIZE] at hcase
      have hi2z : i2 = 0 := by omega
      simp [hi2z]
  rw [hLB]
  simp only [Length, hpadded]
  have htake : b.take 8 = b := List.take_of_length_le (by omega)
  rw [htake, beBytesToNat_putUint64BE v hv64]
  simp only [toInt64]
  rw [if_pos (by omega)]

/-- Witness for C10 at the concrete inputs 0 and 300. -/
theorem Length_LengthBytes_roundtrip_witness :
    (0 : Nat) < 2 ^ 63 ∧ Length (LengthBytes 0) = ((0 : Nat) : Int) ∧
    (300 : Nat) < 2 ^ 63 ∧ Length (LengthBytes 300) = ((300 : Nat) : Int) :=
  ⟨by decide, Length_LengthBytes_roundtrip 0 (by decide),
   by decide, Length_LengthBytes_roundtrip 300 (by decide)⟩

/-! ## lib/crypto/dsa/dsa.go : the legacy DSA adapter

The fixed network-wide domain parameters, transcribed from the byte
arrays at the top of the file. -/

def dsap : Nat :=
  0x9c05b2aa960d9b97b8931963c9cc9e8c3026e9b8ed92fad0a69cc886d5bf8015fcadae31a0ad18fab3f01b00a358de237655c4964afaa2b337e96ad316b9fb1cc564b5aec5b69a9ff6c3e4548707fef8503d91dd8602e867e6d35d2235c1869ce2479c3b9d5401de04e0727fb33d6511285d4cf29538d9e3b6051f5b22cc1c93

def dsaq : Nat :=
  0xa5dfc28fef4ca1e286744cd8eed9d29d684046b7

def dsag : Nat :=
  0x0c1f4d27d40093b429e962d7223824e0bbc47e7c832a39236fc683af84889581075ff9082ed32353d4374d7301cda1d23c431f4698599dda02451824ff369752593647cc3ddc197de985e43d136cdcfc6bd5409cd2f450821142a5e6f8eb1c3ab5d0484b8129fcf17bce4f7f33321c3cb3dbb14a905e7b2b3e93be4708cbcc82

/-- Binary modular exponentiation with an explicit fuel argument (the fuel
is always at least the exponent at the call sites). -/
def modExpAux : Nat → Nat → Nat → Nat → Nat
  | 0, _, _, m => 1 % m
  | fuel + 1, b, e, m =>
    if e = 0 then 1 % m
    else
      let r := modExpAux fuel (b * b % m) (e / 2) m
      if e % 2 = 1 then r * b % m else r

/-- big.Int.Exp with a positive modulus: b ^ e mod m. -/
def modExp (b e m : Nat) : Nat := modExpAux e b e m

theorem modExpAux_correct : ∀ fuel b e m, 0 < m → e ≤ fuel →
    modExpAux fuel b e m = b ^ e % m := by
  intro fuel
  induction fuel with
  | zero =>
    intro b e m hm he
    have he0 : e = 0 := by omega
    simp [modExpAux, he0]
  | succ fuel ih =>
    intro b e m hm he
    by_cases he0 : e = 0
    · simp [modExpAux, he0]
    · simp only [modExpAux, he0, if_false]
      have hrec : modExpAux fuel (b * b % m) (e / 2) m = (b * b % m) ^ (e / 2) % m :=
        ih _ _ _ hm (by omega)
      have hpow : (b * b % m) ^ (e / 2) % m = b ^ (2 * (e / 2)) % m := by
        rw [← Nat.pow_mod, ← pow_two, ← pow_mul]
      by_cases hodd : e % 2 = 1
      · have he2 : e / 2 * 2 + 1 = e := by omega
        simp only [hodd, if_pos, hrec, hpow]
        rw [Nat.mod_mul_mod, ← pow_succ, mul_comm 2 (e / 2)]
        rw [he2]
      · have he2 : 2 * (e / 2) = e := by omega
        simp only [hodd, if_neg, hrec, hpow, he2]
        simp [hodd]

theorem modExp_correct (b e m : Nat) (hm : 0 < m) : modExp b e m = b ^ e % m :=
  modExpAux_correct e b e m hm le_rfl

/-- The value held by a Go dsa.PrivateKey built by createDSAPrivkey: the
public component Y and the exponent X (the shared domain parameters are
the fixed constants above). -/
structure DSAPrivKeyVal where
  Y : Nat
  X : Nat
deriving DecidableEq

/-- createDSAPrivkey (lib/crypto/dsa/dsa.go): when X.Cmp(dsap) == -1 the
key is built with Y = g ^ X mod p, otherwise nil is returned. -/
def createDSAPrivkey (X : Nat) : Option DSAPrivKeyVal :=
  if X < dsap then some { Y := modExp dsag X dsap, X := X } else none

/-- C8. The private-key derivation validates the exponent against the
modulus p, not the subgroup order q: every X below p (including every X
with q ≤ X < p) yields a key with Y = g ^ X mod p, and every X ≥ p yields
nil. -/
theorem createDSAPrivkey_domain_check (X : Nat) :
    (X < dsap → createDSAPrivkey X = some { Y := dsag ^ X % dsap, X := X }) ∧
    (dsap ≤ X → createDSAPrivkey X = none) := by
  constructor
  · intro h
    simp only [createDSAPrivkey, if_pos h]
    have hp : 0 < dsap := by decide
    rw [modExp_correct dsag X dsap hp]
  · intro h
    simp only [createDSAPrivkey]
    rw [if_neg (by omega)]

/-- Witness for C8: the subgroup order q itself (a value with q ≤ X < p)
is accepted, and p + 1 is rejected. -/
theorem createDSAPrivkey_domain_check_witness :
    (dsaq < dsap ∧
      createDSAPrivkey dsaq = some { Y := dsag ^ dsaq % dsap, X := dsaq }) ∧
    (dsap ≤ dsap + 1 ∧ createDSAPrivkey (dsap + 1) = none) :=
  ⟨⟨by decide, (createDSAPrivkey_domain_check dsaq).1 (by decide)⟩,
   ⟨Nat.le_succ dsap, (createDSAPrivkey_domain_check (dsap + 1)).2 (Nat.le_succ dsap)⟩⟩

/-- big.Int.Bytes via an explicit fuel: the minimal big-endian byte string
of a natural number (empty for zero). The fuel is the number itself at
the call sites, which always suffices. -/
def natBytesBEAux : Nat → Nat → List Nat
  | 0, _ => []
  | fuel + 1, n => if n = 0 then [] else natBytesBEAux fuel (n / 256) ++ [n % 256]

/-- big.Int.Bytes: the minimal big-endian byte string of a natural number. -/
def natBytesBE (n : Nat) : List Nat := natBytesBEAux n n

theorem natBytesBEAux_length_le : ∀ fuel n k, n ≤ fuel → n < 256 ^ k →
    (natBytesBEAux fuel n).length ≤ k := by
  intro fuel
  induction fuel with
  | zero =>
    intro n k _ _
    simp [natBytesBEAux]
  | succ fuel ih =>
    intro n k hn hk
    by_cases hn0 : n = 0
    · simp [natBytesBEAux, hn0]
    · simp only [natBytesBEAux, hn0, if_false, List.length_append, List.length_singleton]
      have hkpos : 0 < k := by
        by_contra hc
        have : k = 0 := by omega
        subst this
        simp at hk
        omega
      have hdiv : n / 256 < 256 ^ (k - 1) := by
        have h256 : 256 ^ k = 256 ^ (k - 1) * 256 := by
          conv_lhs => rw [show k = (k - 1) + 1 by omega]
          rw [pow_succ]
        apply Nat.div_lt_of_lt_mul
        omega
      have hfuel : n / 256 ≤ fuel := by
        have : n / 256 < n := Nat.div_lt_self (by omega) (by omega)
        omega
      have := ih (n / 256) (k - 1) hfuel hdiv
      omega

theorem natBytesBE_length_le (n k : Nat) (h : n < 256 ^ k) :
    (natBytesBE n).length ≤ k :=
  natBytesBEAux_length_le n n k le_rfl h

theorem beBytesToNat_lt : ∀ (l : List Nat) (a : Nat), (∀ b ∈ l, b < 256) →
    l.foldl (fun acc b => acc * 256 + b) a < (a + 1) * 256 ^ l.length := by
  intro l
  induction l with
  | nil =>
    intro a _
    simp
  | cons x rest ih =>
    intro a hb
    have hx : x < 256 := hb x (by simp)
    have hrec := ih (a * 256 + x) (fun b hbm => hb b (by simp [hbm]))
    simp only [List.foldl_cons, List.length_cons]
    calc List.foldl (fun acc b => acc * 256 + b) (a * 256 + x) rest
        < (a * 256 + x + 1) * 256 ^ rest.length := hrec
      _ ≤ (a + 1) * 256 * 256 ^ rest.length := by
          have : a * 256 + x + 1 ≤ (a + 1) * 256 := by omega
          exact Nat.mul_le_mul_right _ this
      _ = (a + 1) * 256 ^ (rest.length + 1) := by ring

theorem beBytesToNat_bounded (l : List Nat) (hb : ∀ b ∈ l, b < 256) :
    beBytesToNat l < 256 ^ l.length := by
  have := beBytesToNat_lt l 0 hb
  simpa [beBytesToNat] using this

/-- The error surfaced by DSAPrivateKey.Public when key derivation fails. -/
inductive KeyFormatError
  | invalidKeyFormat
deriving DecidableEq

/-- DSAPrivateKey.Public (lib/crypto/dsa/dsa.go): decode the 20 key bytes
big-endian into X, run createDSAPrivkey, report ErrInvalidKeyFormat when
it returns nil, else copy Y.Bytes() into the front of the 128-byte public
key array. -/
def dsaPrivateKeyPublic (k : List (Fin 256)) : Except KeyFormatError (List Nat) :=
  match createDSAPrivkey (beBytesToNat (k.map Fin.val)) with
  | none => Except.error KeyFormatError.invalidKeyFormat
  | some p =>
    let yb := natBytesBE p.Y
    Except.ok (yb ++ List.replicate (128 - yb.length) 0)

/-- C9. For every 20-byte private key, Public() never reports
ErrInvalidKeyFormat: the 20-byte exponent is below 2^160, which is below
the 1024-bit modulus, so the nil branch of createDSAPrivkey is
unreachable. -/
theorem dsaPrivateKeyPublic_never_fails (k : List (Fin 256)) (hk : k.length = 20) :
    ∀ e : KeyFormatError, dsaPrivateKeyPublic k ≠ Except.error e := by
  intro e
  have hb : ∀ b ∈ k.map Fin.val, b < 256 := by
    intro b hbm
    rcases List.mem_map.mp hbm with ⟨f, _, hf⟩
    exact hf ▸ f.isLt
  have hlen : (k.map Fin.val).length = 20 := by simp [hk]
  have hX : beBytesToNat (k.map Fin.val) < 256 ^ 20 := by
    have := beBytesToNat_bounded (k.map Fin.val) hb
    rwa [hlen] at this
  have hp : (256 : Nat) ^ 20 < dsap := by decide
  have hlt : beBytesToNat (k.map Fin.val) < dsap := by omega
  simp only [dsaPrivateKeyPublic, createDSAPrivkey, if_pos hlt]
  intro h
  exact Except.noConfusion h

/-- Witness for C9 at the all-zero 20-byte key. -/
theorem dsaPrivateKeyPublic_never_fails_witness :
    (List.replicate 20 (0 : Fin 256)).length = 20 ∧
    dsaPrivateKeyPublic (List.replicate 20 (0 : Fin 256)) ≠
      Except.error KeyFormatError.invalidKeyFormat :=
  ⟨by decide,
   dsaPrivateKeyPublic_never_fails (List.replicate 20 (0 : Fin 256)) (by decide)
     KeyFormatError.invalidKeyFormat⟩

/-- Go copy(dst[i:i+len(src)], src) on byte lists: overwrite the positions
i .. i+len(src)-1 of dst with src. Faithful to the copies in SignHash,
whose destination windows have exactly the source length and end inside
the 40-byte signature. -/
def writeAt (dst : List Nat) (i : Nat) (src : List Nat) : List Nat :=
  dst.take i ++ src ++ dst.drop (i + src.length)

/-- DSASigner.SignHash (lib/crypto/dsa/dsa.go), given the two integers r
and s produced by dsa.Sign (both below the subgroup order q): allocate 40
zero bytes, copy r.Bytes() ending at position 20, copy s.Bytes() ending
at position 40. -/
def signHash (r s : Nat) : List Nat :=
  let sig0 := List.replicate 40 0
  let rb := natBytesBE r
  let rl := rb.length
  let sig1 := writeAt sig0 (20 - rl) rb
  let sb := natBytesBE s
  let sl := sb.length
  writeAt sig1 (20 + (20 - sl)) sb

/-- Go copy fills an exact window: overwriting the positions starting at
the end of pre with src, when the overwritten segment mid has exactly the
length of src, splices src between pre and post. -/
theorem writeAt_exact (pre mid post src : List Nat) (h : mid.length = src.length) :
    writeAt (pre ++ (mid ++ post)) pre.length src = pre ++ (src ++ post) := by
  simp only [writeAt]
  rw [List.take_left]
  have h2 : pre.length + src.length = ((pre ++ mid) : List Nat).length := by
    simp [h]
  rw [h2, ← List.append_assoc, List.drop_left, List.append_assoc]

/-- C6. Every signature produced by SignHash on dsa.Sign outputs (r and s
below q) is exactly 40 bytes: the minimal big-endian bytes of r
left-zero-padded to width 20 in bytes 0..19, followed by those of s
left-zero-padded to width 20 in bytes 20..39. -/
theorem signHash_layout (r s : Nat) (hr : r < dsaq) (hs : s < dsaq) :
    signHash r s =
      (List.replicate (20 - (natBytesBE r).length) 0 ++ natBytesBE r) ++
      (List.replicate (20 - (natBytesBE s).length) 0 ++ natBytesBE s) ∧
    (signHash r s).length = 40 := by
  have hq : dsaq < 256 ^ 20 := by decide
  have hrl : (natBytesBE r).length ≤ 20 := natBytesBE_length_le r 20 (by omega)
  have hsl : (natBytesBE s).length ≤ 20 := natBytesBE_length_le s 20 (by omega)
  set rb := natBytesBE r with hrb
  set sb := natBytesBE s with hsb
  have hz40 : (List.replicate 40 0 : List Nat) =
      List.replicate (20 - rb.length) 0 ++
        (List.replicate rb.length 0 ++ List.replicate 20 0) := by
    rw [← List.replicate_add, ← List.replicate_add]
    congr 1
    omega
  have hsig1 : writeAt (List.replicate 40 0) (20 - rb.length) rb =
      List.replicate (20 - rb.length) 0 ++ (rb ++ List.replicate 20 0) := by
    rw [hz40]
    have := writeAt_exact (List.replicate (20 - rb.length) 0)
      (List.replicate rb.length 0) (List.replicate 20 0) rb (by simp)
    simpa using this
  have hsig1split :
      List.replicate (20 - rb.length) 0 ++ (rb ++ List.replicate 20 0) =
      (List.replicate (20 - rb.length) 0 ++ (rb ++ List.replicate (20 - sb.length) 0)) ++
        (List.replicate sb.length 0 ++ []) := by
    have hz20 : (List.replicate 20 0 : List Nat) =
        List.replicate (20 - sb.length) 0 ++ List.replicate sb.length 0 := by
      rw [← List.replicate_add]
      congr 1
      omega
    rw [hz20]
    simp [List.append_assoc]
  have hprelen :
      ((List.replicate (20 - rb.length) 0 ++ (rb ++ List.replicate (20 - sb.length) 0)) :
        List Nat).length = 20 + (20 - sb.length) := by
    simp
    omega
  have hmain : signHash r s =
      (List.replicate (20 - rb.length) 0 ++ rb) ++
      (List.replicate (20 - sb.length) 0 ++ sb) := by
    simp only [signHash, ← hrb, ← hsb, hsig1, hsig1split]
    have hoff : 20 + (20 - sb.length) =
        ((List.replicate (20 - rb.length) 0 ++ (rb ++ List.replicate (20 - sb.length) 0)) :
          List Nat).length := hprelen.symm
    rw [hoff]
    rw [writeAt_exact _ _ _ _ (by simp)]
    simp [List.append_assoc]
  refine ⟨hmain, ?_⟩
  rw [hmain]
  simp only [List.length_append, List.length_replicate]
  omega


/-- Witness for C6 at r = 1, s = 258. -/
theorem signHash_layout_witness :
    (1 < dsaq ∧ 258 < dsaq) ∧
    signHash 1 258 =
      (List.replicate (20 - (natBytesBE 1).length) 0 ++ natBytesBE 1) ++
      (List.replicate (20 - (natBytesBE 258).length) 0 ++ natBytesBE 258) ∧
    (signHash 1 258).length = 40 :=
  ⟨⟨by decide, by decide⟩, signHash_layout 1 258 (by decide) (by decide)⟩

/-- The error values a DSA verification can report. -/
inductive SigError
  | invalidSignature
  | badSignatureSize
deriving DecidableEq

/-- DSAVerifier.VerifyHash (lib/crypto/dsa/dsa.go), parameterized by the
opaque dsa.Verify capability of the standard library: a 40-byte signature
is split into big-endian r = sig[0:20] and s = sig[20:40] and checked;
any other length reports ErrBadSignatureSize without calling the
verifier. -/
def verifyHash (dsaVerify : List Nat → Nat → Nat → Bool) (h sig : List Nat) :
    Option SigError :=
  if sig.length = 40 then
    let r := beBytesToNat (sig.take 20)
    let s := beBytesToNat (sig.drop 20)
    if dsaVerify h r s then none else some SigError.invalidSignature
  else some SigError.badSignatureSize

/-- C5. VerifyHash reports BadSignatureSize exactly on signatures whose
length differs from 40; on 40-byte signatures it reports InvalidSignature
exactly when DSA verification of (r, s) = (sig[0:20], sig[20:40]) fails
and nil exactly when it succeeds. -/
theorem verifyHash_cases (dsaVerify : List Nat → Nat → Nat → Bool)
    (h sig : List Nat) :
    (verifyHash dsaVerify h sig = some SigError.badSignatureSize ↔ sig.length ≠ 40) ∧
    (sig.length = 40 →
      ((verifyHash dsaVerify h sig = some SigError.invalidSignature ↔
        dsaVerify h (beBytesToNat (sig.take 20)) (beBytesToNat (sig.drop 20)) = false) ∧
       (verifyHash dsaVerify h sig = none ↔
        dsaVerify h (beBytesToNat (sig.take 20)) (beBytesToNat (sig.drop 20)) = true))) := by
  constructor
  · by_cases hl : sig.length = 40
    · simp only [verifyHash, if_pos hl]
      constructor
      · intro hcontra
        by_cases hv : dsaVerify h (beBytesToNat (sig.take 20)) (beBytesToNat (sig.drop 20))
        · rw [if_pos hv] at hcontra
          exact Option.noConfusion hcontra
        · rw [if_neg hv] at hcontra
          have := Option.some.inj hcontra
          exact SigError.noConfusion this
      · intro hne
        exact absurd hl hne
    · simp [verifyHash, hl]
  · intro hl
    simp only [verifyHash, if_pos hl]
    by_cases hv : dsaVerify h (beBytesToNat (sig.take 20)) (beBytesToNat (sig.drop 20))
    · simp [hv]
    · simp [hv]

/-- Witness for C5 on a verifier accepting exactly r = 1 and two concrete
signatures of length 40 and 39. -/
theorem verifyHash_cases_witness :
    ((List.replicate 19 0 ++ 1 :: List.replicate 20 0).length = 40 ∧
      verifyHash (fun _ r _ => r = 1) []
        (List.replicate 19 0 ++ 1 :: List.replicate 20 0) = none) ∧
    (verifyHash (fun _ r _ => r = 1) [] (List.replicate 39 0) =
      some SigError.badSignatureSize ↔ (List.replicate 39 (0 : Nat)).length ≠ 40) := by
  refine ⟨⟨by decide, ?_⟩, (verifyHash_cases (fun _ r _ => r = 1) [] (List.replicate 39 0)).1⟩
  have h := ((verifyHash_cases (fun _ r _ => r = 1) []
    (List.replicate 19 0 ++ 1 :: List.replicate 20 0)).2 (by decide)).2
  exact h.mpr (by decide)

/-! ## lib/transport/ntcp/session.go : NTCP2 session helpers

The NTCP2 ephemeral-key obfuscation runs the AES-256 block cipher
(selected by the peer's 32-byte static key) in CBC mode with a zero
initialization vector and no padding. The block cipher itself is the Go
standard library's crypto/aes, out of scope per the capability layer;
it enters the embedding as a pair of opaque 16-byte block maps. -/

/-- Byte-wise XOR of two equal-length byte strings (crypto/cipher
xorBytes, as used by the CBC modes). -/
def xorBytes (a b : List Nat) : List Nat :=
  List.zipWith (fun x y => x ^^^ y) a b

/-- cipher.NewCBCEncrypter CryptBlocks: each plaintext block is XORed
with the previous ciphertext block (initially the IV) and passed through
the block cipher E. -/
def cbcEncBlocks (E : List Nat → List Nat) : List Nat → List (List Nat) → List (List Nat)
  | _, [] => []
  | prev, p :: ps =>
    let c := E (xorBytes prev p)
    c :: cbcEncBlocks E c ps

/-- cipher.NewCBCDecrypter CryptBlocks: each ciphertext block is passed
through the inverse block cipher D and XORed with the previous ciphertext
block (initially the IV). -/
def cbcDecBlocks (D : List Nat → List Nat) : List Nat → List (List Nat) → List (List Nat)
  | _, [] => []
  | prev, c :: cs => xorBytes prev (D c) :: cbcDecBlocks D c cs

/-- Split a byte string into 16-byte cipher blocks (CryptBlocks requires
a multiple of the block size; the fuel is the length of the list at the
call sites). -/
def chunks16 : Nat → List Nat → List (List Nat)
  | 0, _ => []
  | _, [] => []
  | fuel + 1, l => l.take 16 :: chunks16 fuel (l.drop 16)

/-- ObfuscateEphemeral (lib/transport/ntcp/session.go) with the AES-256
cipher keyed by the peer's static key abstracted as E: CBC-encrypt the
key material under a zero IV. -/
def obfuscateEphemeral (E : List Nat → List Nat) (key : List Nat) : List Nat :=
  (cbcEncBlocks E (List.replicate 16 0) (chunks16 key.length key)).flatten

/-- DeobfuscateEphemeral (lib/transport/ntcp/session.go) with the inverse
AES-256 cipher abstracted as D: CBC-decrypt under a zero IV. -/
def deobfuscateEphemeral (D : List Nat → List Nat) (obfuscated : List Nat) : List Nat :=
  (cbcDecBlocks D (List.replicate 16 0) (chunks16 obfuscated.length obfuscated)).flatten

theorem xorBytes_length (a b : List Nat) :
    (xorBytes a b).length = min a.length b.length := by
  simp [xorBytes]

theorem xorBytes_cancel : ∀ a b : List Nat, a.length = b.length →
    xorBytes a (xorBytes a b) = b := by
  intro a
  induction a with
  | nil =>
    intro b hb
    have : b = [] := by
      cases b with
      | nil => rfl
      | cons x xs => simp at hb
    simp [this, xorBytes]
  | cons x xs ih =>
    intro b hb
    cases b with
    | nil => simp at hb
    | cons y ys =>
      simp only [xorBytes, List.zipWith_cons_cons, List.cons.injEq]
      constructor
      · rw [← Nat.xor_assoc, Nat.xor_self, Nat.zero_xor]
      · exact ih ys (by simpa using hb)

/-- C1. For every 32-byte input and every block cipher pair (E, D) that
are mutually inverse 16-byte block maps (the AES-256 instance keyed by
the peer's static key), deobfuscation undoes obfuscation exactly:
DeobfuscateEphemeral (ObfuscateEphemeral k) = k. -/
theorem deobfuscate_obfuscate_id (E D : List Nat → List Nat) (k : List Nat)
    (hk : k.length = 32)
    (hE : ∀ b : List Nat, (E b).length = 16)
    (hD : ∀ b : List Nat, b.length = 16 → D (E b) = b) :
    deobfuscateEphemeral D (obfuscateEphemeral E k) = k := by
  have hb1len : (k.take 16).length = 16 := by simp [hk]
  have hb2len : (k.drop 16).length = 16 := by simp [hk]
  have hchunk : chunks16 k.length k = [k.take 16, k.drop 16] := by
    rw [hk]
    have h16 : (k.drop 16).length = 16 := hb2len
    have hne : k ≠ [] := by
      intro h
      rw [h] at hk
      simp at hk
    show chunks16 32 k = [k.take 16, k.drop 16]
    cases k with
    | nil => simp at hk
    | cons x xs =>
      simp only [chunks16]
      congr 1
      have hxs : (List.drop 16 (x :: xs)).length = 16 := hb2len
      cases hd : List.drop 16 (x :: xs) with
      | nil =>
        rw [hd] at hxs
        simp at hxs
      | cons y ys =>
        simp only [chunks16]
        rw [← hd]
        congr 1
        · rw [List.take_of_length_le (by rw [hb2len])]
        · have : (List.drop 16 (x :: xs)).drop 16 = [] := by
            apply List.drop_eq_nil_of_le
            rw [hb2len]
          rw [this]
          rfl
  set iv : List Nat := List.replicate 16 0 with hiv
  have hivlen : iv.length = 16 := by simp [hiv]
  set b1 := k.take 16 with hb1
  set b2 := k.drop 16 with hb2
  set c1 := E (xorBytes iv b1) with hc1
  set c2 := E (xorBytes c1 b2) with hc2
  have hc1len : c1.length = 16 := hE _
  have hc2len : c2.length = 16 := hE _
  have henc : obfuscateEphemeral E k = c1 ++ c2 := by
    simp only [obfuscateEphemeral, hchunk, cbcEncBlocks, ← hb1, ← hb2, ← hiv, ← hc1, ← hc2]
    simp
  have hclen : (c1 ++ c2).length = 32 := by simp [hc1len, hc2len]
  have hchunk2 : chunks16 (c1 ++ c2).length (c1 ++ c2) = [c1, c2] := by
    rw [hclen]
    show chunks16 32 (c1 ++ c2) = [c1, c2]
    have htake : (c1 ++ c2).take 16 = c1 := by
      rw [← hc1len, List.take_left]
    have hdrop : (c1 ++ c2).drop 16 = c2 := by
      rw [← hc1len, List.drop_left]
    cases hcc : c1 ++ c2 with
    | nil =>
      rw [hcc] at hclen
      simp at hclen
    | cons z zs =>
      simp only [chunks16]
      rw [← hcc, htake, hdrop]
      congr 1
      cases hc2c : c2 with
      | nil =>
        rw [hc2c] at hc2len
        simp at hc2len
      | cons w ws =>
        simp only [chunks16]
        rw [← hc2c]
        congr 1
        · rw [List.take_of_length_le (by rw [hc2len])]
        · have : c2.drop 16 = [] := List.drop_eq_nil_of_le (by rw [hc2len])
          rw [this]
          rfl
  have hx1len : (xorBytes iv b1).length = 16 := by
    rw [xorBytes_length, hivlen, hb1len]
    simp
  have hx2len : (xorBytes c1 b2).length = 16 := by
    rw [xorBytes_length, hc1len, hb2len]
    simp
  have hdec1 : D c1 = xorBytes iv b1 := by
    rw [hc1]
    exact hD _ hx1len
  have hdec2 : D c2 = xorBytes c1 b2 := by
    rw [hc2]
    exact hD _ hx2len
  have hxc1 : xorBytes iv (D c1) = b1 := by
    rw [hdec1]
    exact xorBytes_cancel iv b1 (by rw [hivlen, hb1len])
  have hxc2 : xorBytes c1 (D c2) = b2 := by
    rw [hdec2]
    exact xorBytes_cancel c1 b2 (by rw [hc1len, hb2len])
  calc deobfuscateEphemeral D (obfuscateEphemeral E k)
      = (cbcDecBlocks D iv [c1, c2]).flatten := by
        rw [henc]
        simp only [deobfuscateEphemeral, hchunk2, hiv]
    _ = b1 ++ (b2 ++ []) := by
        simp only [cbcDecBlocks, hxc1, hxc2, List.flatten]
    _ = k := by
        simp [hb1, hb2]

/-- A concrete length-16-preserving involution standing in for the AES
block maps in the witness: XOR every byte with 0x55 and pad or cut to 16
bytes (the padding never fires on 16-byte blocks). -/
def xorBlockE (b : List Nat) : List Nat :=
  (b.map (fun x => x ^^^ 85)).take 16 ++ List.replicate (16 - b.length) 0

/-- The matching inverse block map of xorBlockE on 16-byte blocks. -/
def xorBlockD (b : List Nat) : List Nat :=
  b.map (fun x => x ^^^ 85)

/-- Witness for C1 at a concrete 32-byte input and the xorBlock cipher
pair. -/
theorem deobfuscate_obfuscate_id_witness :
    deobfuscateEphemeral xorBlockD
      (obfuscateEphemeral xorBlockE (List.range 32)) = List.range 32 := by
  have hE : ∀ b : List Nat, (xorBlockE b).length = 16 := by
    intro b
    simp [xorBlockE]
    omega
  have hD : ∀ b : List Nat, b.length = 16 → xorBlockD (xorBlockE b) = b := by
    intro b hb
    simp only [xorBlockE, xorBlockD, hb]
    rw [List.take_of_length_le (by simp [hb])]
    simp only [Nat.sub_self, List.replicate_zero, List.append_nil, List.map_map]
    have : ∀ x : Nat, x ^^^ 85 ^^^ 85 = x := by
      intro x
      rw [Nat.xor_assoc, Nat.xor_self, Nat.xor_zero]
    calc b.map ((fun x => x ^^^ 85) ∘ (fun x => x ^^^ 85))
        = b.map id := by
          apply List.map_congr_left
          intro x _
          simp [Function.comp, this]
      _ = b := List.map_id b
  exact deobfuscate_obfuscate_id xorBlockE xorBlockD (List.range 32) (by decide) hE hD

/-! ## NTCP2 session construction and transport compatibility

RouterAddress values reach peerStaticKey and Transport.Compatible through
two opaque accessors of the descriptor model: TransportStyle().Data(),
which can fail, and StaticKey(), which returns the 32 static-key bytes or
an error. Both are modelled as fields carrying their result. -/

def NTCP_PROTOCOL_NAME : String := "NTCP2"

/-- The view of a RouterAddress that the NTCP2 transport reads: the
transport-style string (or the error Data() reports) and the result of
StaticKey(). -/
structure RouterAddressView where
  transportStyle : Except String String
  staticKey : Except String (List Nat)

/-- NTCP2Session.peerStaticKey (lib/transport/ntcp/session.go): walk the
descriptor's address list, skip entries whose transport-style string
cannot be read, return StaticKey() of the first entry whose style equals
the protocol name, and fail when no entry matches. -/
def peerStaticKey : List RouterAddressView → Except String (List Nat)
  | [] => Except.error "Remote static key error"
  | a :: rest =>
    match a.transportStyle with
    | Except.error _ => peerStaticKey rest
    | Except.ok style =>
      if style = NTCP_PROTOCOL_NAME then a.staticKey else peerStaticKey rest

/-- Transport.Compatible (lib/transport/ntcp): true when some address in
the descriptor has the NTCP2 transport style (unreadable styles are
skipped). -/
def transportCompatible (addrs : List RouterAddressView) : Bool :=
  addrs.any fun a =>
    match a.transportStyle with
    | Except.ok style => style = NTCP_PROTOCOL_NAME
    | Except.error _ => false

/-- An address with a readable NTCP2 transport style. -/
def isNTCP2 (a : RouterAddressView) : Prop :=
  a.transportStyle = Except.ok NTCP_PROTOCOL_NAME

theorem transportCompatible_iff (addrs : List RouterAddressView) :
    transportCompatible addrs = true ↔ ∃ a ∈ addrs, isNTCP2 a := by
  induction addrs with
  | nil => simp [transportCompatible]
  | cons x rest ih =>
    simp only [transportCompatible, List.any_cons, Bool.or_eq_true] at *
    constructor
    · intro h
      cases h with
      | inl h =>
        refine ⟨x, by simp, ?_⟩
        unfold isNTCP2
        cases hx : x.transportStyle with
        | error e => rw [hx] at h; simp at h
        | ok style =>
          rw [hx] at h
          simp only [decide_eq_true_eq] at h
          rw [h]
      | inr h =>
        rcases ih.mp h with ⟨a, ha, hn⟩
        exact ⟨a, by simp [ha], hn⟩
    · rintro ⟨a, ha, hn⟩
      rcases List.mem_cons.mp ha with rfl | hmem
      · left
        unfold isNTCP2 at hn
        rw [hn]
        simp [NTCP_PROTOCOL_NAME]
      · right
        exact ih.mpr ⟨a, hmem, hn⟩

theorem peerStaticKey_no_match (addrs : List RouterAddressView)
    (h : ∀ a ∈ addrs, ¬ isNTCP2 a) :
    peerStaticKey addrs = Except.error "Remote static key error" := by
  induction addrs with
  | nil => rfl
  | cons x rest ih =>
    have hx : ¬ isNTCP2 x := h x (by simp)
    have hrest : ∀ a ∈ rest, ¬ isNTCP2 a := fun a ha => h a (by simp [ha])
    simp only [peerStaticKey]
    cases hs : x.transportStyle with
    | error e => exact ih hrest
    | ok style =>
      have hne : style ≠ NTCP_PROTOCOL_NAME := by
        intro hc
        exact hx (by unfold isNTCP2; rw [hs, hc])
      exact (if_neg hne :
        (if style = NTCP_PROTOCOL_NAME then x.staticKey else peerStaticKey rest) =
          peerStaticKey rest).trans (ih hrest)

theorem peerStaticKey_first_match (l1 : List RouterAddressView)
    (a : RouterAddressView) (l2 : List RouterAddressView)
    (h1 : ∀ b ∈ l1, ¬ isNTCP2 b) (ha : isNTCP2 a) :
    peerStaticKey (l1 ++ a :: l2) = a.staticKey := by
  induction l1 with
  | nil =>
    simp only [List.nil_append, peerStaticKey]
    unfold isNTCP2 at ha
    rw [ha]
    simp [peerStaticKey]
  | cons x rest ih =>
    have hx : ¬ isNTCP2 x := h1 x (by simp)
    have hrest : ∀ b ∈ rest, ¬ isNTCP2 b := fun b hb => h1 b (by simp [hb])
    simp only [List.cons_append, peerStaticKey]
    cases hs : x.transportStyle with
    | error e => exact ih hrest
    | ok style =>
      have hne : style ≠ NTCP_PROTOCOL_NAME := by
        intro hc
        exact hx (by unfold isNTCP2; rw [hs, hc])
      exact (if_neg hne :
        (if style = NTCP_PROTOCOL_NAME then x.staticKey
          else peerStaticKey (rest ++ a :: l2)) =
          peerStaticKey (rest ++ a :: l2)).trans (ih hrest)

/-- C2. Session construction reads the peer's static key from the first
address whose transport style reads as "NTCP2" and fails with an error
(no zero key) when no address matches; Compatible is true exactly when
some address matches. -/
theorem peerStaticKey_compatible (addrs : List RouterAddressView) :
    (transportCompatible addrs = true ↔ ∃ a ∈ addrs, isNTCP2 a) ∧
    ((∀ a ∈ addrs, ¬ isNTCP2 a) →
      peerStaticKey addrs = Except.error "Remote static key error") ∧
    (∀ (l1 : List RouterAddressView) (a : RouterAddressView)
        (l2 : List RouterAddressView), addrs = l1 ++ a :: l2 →
      (∀ b ∈ l1, ¬ isNTCP2 b) → isNTCP2 a → peerStaticKey addrs = a.staticKey) :=
  ⟨transportCompatible_iff addrs,
   peerStaticKey_no_match addrs,
   fun l1 a l2 heq h1 ha => heq ▸ peerStaticKey_first_match l1 a l2 h1 ha⟩

/-- Witness for C2: a three-address list whose second entry is the first
NTCP2 address. -/
theorem peerStaticKey_compatible_witness :
    transportCompatible
      [⟨Except.error "e", Except.ok [1]⟩,
       ⟨Except.ok "NTCP2", Except.ok [7]⟩,
       ⟨Except.ok "SSU", Except.ok [9]⟩] = true ∧
    peerStaticKey
      [⟨Except.error "e", Except.ok [1]⟩,
       ⟨Except.ok "NTCP2", Except.ok [7]⟩,
       ⟨Except.ok "SSU", Except.ok [9]⟩] = Except.ok [7] ∧
    peerStaticKey [⟨Except.ok "SSU", Except.ok [9]⟩] =
      Except.error "Remote static key error" := by
  refine ⟨?_, ?_, ?_⟩
  · exact (peerStaticKey_compatible _).1.mpr
      ⟨⟨Except.ok "NTCP2", Except.ok [7]⟩, by simp, by unfold isNTCP2; rfl⟩
  · exact (peerStaticKey_compatible _).2.2
      [⟨Except.error "e", Except.ok [1]⟩] ⟨Except.ok "NTCP2", Except.ok [7]⟩
      [⟨Except.ok "SSU", Except.ok [9]⟩] rfl
      (by
        intro b hb
        simp only [List.mem_singleton] at hb
        subst hb
        unfold isNTCP2
        simp [NTCP_PROTOCOL_NAME])
      (by unfold isNTCP2; rfl)
  · exact (peerStaticKey_compatible _).2.1
      (by
        intro a ha
        simp only [List.mem_singleton] at ha
        subst ha
        unfold isNTCP2
        simp [NTCP_PROTOCOL_NAME])

/-! ## KeysAndCert parsing (lib/common/keys_and_cert.go)

The Certificate value type and ReadCertificate live in
lib/common/certificate.go, which is not part of the sources here; they
are modelled from the spec (Certificate = Type[1] ‖ Length[2] ‖
Payload[Length], with the InsufficientData / InvalidLength error
conventions). ReadKeysAndCert and ReadKeys are embedded from the source.
-/

/-- The parse errors the descriptor model reports. -/
inductive ParseErr
  | insufficientData
  | certTooShort
  | certInvalidLength
deriving DecidableEq

/-- Modelled from the spec: the Certificate value type of
lib/common/certificate.go (not under src/), a type tag plus a
length-prefixed payload held as raw bytes. -/
structure Certificate where
  CertBytes : List Nat
deriving DecidableEq

/-- Modelled from the spec: Certificate.Type() reads the one-byte type
tag, reporting an error (and the zero type) when no byte is present. -/
def Certificate.certTypeR (c : Certificate) : Nat × Option ParseErr :=
  match c.CertBytes with
  | [] => (0, some ParseErr.certTooShort)
  | t :: _ => (t, none)

/-- Modelled from the spec: Certificate.Length() reads the two-byte
big-endian payload length; fewer than three bytes is an error with
length zero, and a declared length exceeding the held bytes returns the
declared length with the InvalidLength error set. -/
def Certificate.certLengthR (c : Certificate) : Nat × Option ParseErr :=
  if c.CertBytes.length < 3 then (0, some ParseErr.certTooShort)
  else if c.CertBytes.length < 3 + beBytesToNat ((c.CertBytes.drop 1).take 2) then
    (beBytesToNat ((c.CertBytes.drop 1).take 2), some ParseErr.certInvalidLength)
  else (beBytesToNat ((c.CertBytes.drop 1).take 2), none)

/-- Modelled from the spec: ReadCertificate (lib/common/certificate.go,
not under src/) parses Type[1] ‖ Length[2] ‖ Payload[Length] off the
front of the input, with fewer than three bytes fatal and a declared
length past the end returning the truncated value with the error set. -/
def ReadCertificate (data : List Nat) : Certificate × List Nat × Option ParseErr :=
  if data.length < 3 then (⟨data⟩, [], some ParseErr.certTooShort)
  else if data.length < 3 + beBytesToNat ((data.drop 1).take 2) then
    (⟨data⟩, [], some ParseErr.certInvalidLength)
  else (⟨data.take (3 + beBytesToNat ((data.drop 1).take 2))⟩,
    data.drop (3 + beBytesToNat ((data.drop 1).take 2)), none)

/-- The KEY certificate type tag (the sixth member of the certificate
type enumeration NULL, HASHCASH, HIDDEN, SIGNED, MULTIPLE, KEY). -/
def CERT_KEY : Nat := 5

def KEYS_AND_CERT_PUBKEY_SIZE : Nat := 256
def KEYS_AND_CERT_SPK_SIZE : Nat := 128
def KEYS_AND_CERT_MIN_SIZE : Nat := 387

/-- The public-key slot value ReadKeys produces: either the legacy
ElGamal interpretation or a key constructed from a KEY certificate
(ConstructPublicKey, modelled from the spec as carrying the slot
bytes). -/
inductive PubKeyVal
  | elg (bytes : List Nat)
  | fromCert (bytes : List Nat)
deriving DecidableEq

/-- The signing-key slot value ReadKeys produces: either the legacy DSA
interpretation or a key constructed from a KEY certificate
(ConstructSigningPublicKey, modelled from the spec as carrying the slot
bytes). -/
inductive SigKeyVal
  | dsa (bytes : List Nat)
  | fromCert (bytes : List Nat)
deriving DecidableEq

structure ReadKeysResult where
  spk : Option SigKeyVal
  pk : Option PubKeyVal
  remainder : List Nat
  err : Option ParseErr
deriving DecidableEq

/-- ReadKeys (lib/common/keys_and_cert.go): after the minimum-size guard,
the data_len == 0 branches are unreachable; with a KEY certificate the
slots go through the certificate's key construction, otherwise the
public-key slot branch executes copy(data[:256], elg_key[:]) — which
copies the zero-valued elg_key over the first 256 bytes of data, leaving
pk the zero key (the mutated data is threaded through as data2) — and
the signing-key slot is copied out of data[256:384] correctly. The tail
handles the certificate length as in the source. -/
def ReadKeys (data : List Nat) (cert : Certificate) : ReadKeysResult :=
  if data.length < KEYS_AND_CERT_MIN_SIZE then
    ⟨none, none, [], some ParseErr.insufficientData⟩
  else
    let certType := cert.certTypeR.1
    let pkData :=
      if certType = CERT_KEY then
        (PubKeyVal.fromCert (data.take KEYS_AND_CERT_PUBKEY_SIZE), data)
      else
        (PubKeyVal.elg (List.replicate KEYS_AND_CERT_PUBKEY_SIZE 0),
         List.replicate KEYS_AND_CERT_PUBKEY_SIZE 0 ++
           data.drop KEYS_AND_CERT_PUBKEY_SIZE)
    let pk := pkData.1
    let data2 := pkData.2
    let slot := (data2.drop KEYS_AND_CERT_PUBKEY_SIZE).take KEYS_AND_CERT_SPK_SIZE
    let spk :=
      if certType = CERT_KEY then SigKeyVal.fromCert slot else SigKeyVal.dsa slot
    let lenR := cert.certLengthR
    let cert_len := lenR.1
    if cert_len = 0 then
      ⟨some spk, some pk, data2.drop KEYS_AND_CERT_MIN_SIZE, none⟩
    else if data2.length < KEYS_AND_CERT_MIN_SIZE + cert_len then
      ⟨some spk, some pk, [], lenR.2⟩
    else
      ⟨some spk, some pk, data2.drop (KEYS_AND_CERT_MIN_SIZE + cert_len), none⟩

structure KeysAndCertVal where
  spk : Option SigKeyVal
  pk : Option PubKeyVal
  cert : Certificate
deriving DecidableEq

/-- ReadKeysAndCert (lib/common/keys_and_cert.go): the minimum-size guard,
then ReadCertificate over the first 387 bytes (fatal on error), then the
reassignment cert, _ = keys_and_cert.GetCertificate() — taken on the
still-zero named return, whose empty certificate fails Type(), so the
discarded-error call leaves cert the zero certificate — and finally
ReadKeys with that certificate. -/
def ReadKeysAndCert (data : List Nat) :
    Option KeysAndCertVal × List Nat × Option ParseErr :=
  if data.length < KEYS_AND_CERT_MIN_SIZE then
    (none, [], some ParseErr.insufficientData)
  else
    let r0 := ReadCertificate (data.take KEYS_AND_CERT_MIN_SIZE)
    match r0.2.2 with
    | some e => (none, r0.2.1, some e)
    | none =>
      let cert : Certificate := ⟨[]⟩
      let rk := ReadKeys data cert
      match rk.err with
      | some e => (none, rk.remainder, some e)
      | none => (some ⟨rk.spk, rk.pk, cert⟩, rk.remainder, none)

/-- A 387-byte input whose public-key slot starts with a nonzero byte and
whose signing-key slot holds a nonzero byte at offset 299. -/
def keysInput : List Nat :=
  1 :: List.replicate 298 0 ++ 9 :: List.replicate 87 0

/-- C3. Evaluating ReadKeys on keysInput under a NULL certificate: the
legacy public-key slot comes back as 256 zero bytes although the input
slot bytes are not zero (the copy in the source has destination and
source swapped, zeroing the slot instead of capturing it), while the
legacy signing-key slot is decoded faithfully from bytes 256..383. -/
theorem readKeys_legacy_zeroes_pubkey :
    (ReadKeys keysInput ⟨[0, 0, 0]⟩).pk =
      some (PubKeyVal.elg (List.replicate 256 0)) ∧
    keysInput.take 256 ≠ List.replicate 256 0 ∧
    (ReadKeys keysInput ⟨[0, 0, 0]⟩).spk =
      some (SigKeyVal.dsa ((keysInput.drop 256).take 128)) ∧
    (keysInput.drop 256).take 128 ≠ List.replicate 128 0 := by decide

theorem certLengthR_not_insufficient (c : Certificate) :
    c.certLengthR.2 ≠ some ParseErr.insufficientData := by
  unfold Certificate.certLengthR
  split_ifs <;> simp

theorem readKeys_err_not_insufficient (data : List Nat) (cert : Certificate)
    (h : KEYS_AND_CERT_MIN_SIZE ≤ data.length) :
    (ReadKeys data cert).err ≠ some ParseErr.insufficientData := by
  have hlen := certLengthR_not_insufficient cert
  unfold ReadKeys
  rw [if_neg (by omega)]
  dsimp only
  split_ifs <;> simp_all

/-- C4. ReadKeysAndCert reports the fatal insufficient-data error and no
KeysAndCert value on every input shorter than 387 bytes; on inputs of at
least 387 bytes the minimum-size check passes, and any error still
reported is never the insufficient-data error. -/
theorem readKeysAndCert_min_size (data : List Nat) :
    (data.length < 387 →
      ReadKeysAndCert data = (none, [], some ParseErr.insufficientData)) ∧
    (387 ≤ data.length →
      ∀ v rem e, ReadKeysAndCert data = (v, rem, some e) →
        e ≠ ParseErr.insufficientData) := by
  constructor
  · intro h
    unfold ReadKeysAndCert
    rw [if_pos (by simpa [KEYS_AND_CERT_MIN_SIZE] using h)]
  · intro h v rem e heq
    unfold ReadKeysAndCert at heq
    rw [if_neg (by simp only [KEYS_AND_CERT_MIN_SIZE]; omega)] at heq
    simp only at heq
    set r0 := ReadCertificate (data.take KEYS_AND_CERT_MIN_SIZE) with hr0
    have hcert : r0.2.2 ≠ some ParseErr.insufficientData := by
      rw [hr0]
      unfold ReadCertificate
      split_ifs <;> simp
    cases hc : r0.2.2 with
    | some e0 =>
      rw [hc] at heq
      simp only at heq
      have he : e = e0 := by
        have := congrArg (fun p => p.2.2) heq
        simpa using this.symm
      rw [he]
      intro hcontra
      exact hcert (by rw [hc, hcontra])
    | none =>
      rw [hc] at heq
      simp only at heq
      have hrk := readKeys_err_not_insufficient data ⟨[]⟩
        (by simp only [KEYS_AND_CERT_MIN_SIZE]; omega)
      cases hk : (ReadKeys data (⟨[]⟩ : Certificate)).err with
      | some e1 =>
        rw [hk] at heq
        simp only at heq
        have he : e = e1 := by
          have := congrArg (fun p => p.2.2) heq
          simpa using this.symm
        rw [he]
        intro hcontra
        exact hrk (by rw [hk, hcontra])
      | none =>
        rw [hk] at heq
        simp only at heq
        have := congrArg (fun p => p.2.2) heq
        simp at this

/-- Witness for C4 at a 10-byte input and a 387-byte all-zero input. -/
theorem readKeysAndCert_min_size_witness :
    ((List.replicate 10 0 : List Nat).length < 387 ∧
      ReadKeysAndCert (List.replicate 10 0) =
        (none, [], some ParseErr.insufficientData)) ∧
    (387 ≤ (List.replicate 387 0 : List Nat).length ∧
      ∀ v rem e, ReadKeysAndCert (List.replicate 387 0) = (v, rem, some e) →
        e ≠ ParseErr.insufficientData) :=
  ⟨⟨by decide, (readKeysAndCert_min_size (List.replicate 10 0)).1 (by decide)⟩,
   ⟨by decide, (readKeysAndCert_min_size (List.replicate 387 0)).2 (by decide)⟩⟩

/-! ## NTCP2 message 1 (SessionRequest) outbound options

SessionRequestProcessor.CreateMessage builds the RequestOptions record.
The I2P Integer and Date constructors it calls live in lib/common/data,
which is not part of the sources here, and are modelled from the spec. -/

/-- Big-endian bytes of a value in a fixed number of bytes
(most-significant byte first, value truncated modulo 256^size). -/
def beBytesOfSize : Nat → Nat → List Nat
  | 0, _ => []
  | n + 1, v => beBytesOfSize n (v / 256) ++ [v % 256]

theorem beBytesOfSize_length : ∀ (n v : Nat), (beBytesOfSize n v).length = n := by
  intro n
  induction n with
  | zero => intro v; rfl
  | succ n ih =>
    intro v
    simp only [beBytesOfSize, List.length_append, List.length_singleton, ih]

/-- Modelled from the spec: data.NewIntegerFromInt (lib/common/data, not
under src/) builds an I2P Integer of the requested byte size holding the
big-endian value. -/
def newIntegerFromInt (value size : Nat) : List Nat :=
  beBytesOfSize size value

/-- Modelled from the spec: data.NewInteger (lib/common/data, not under
src/) reads an I2P Integer of the requested byte size off the front of
the given bytes. -/
def newIntegerFromBytes (bytes : List Nat) (size : Nat) : List Nat :=
  bytes.take size

/-- Modelled from the spec: data.DateFromTime (lib/common/data, not under
src/) builds the eight-byte big-endian I2P Date for the given time. -/
def dateFromTime (t : Nat) : List Nat :=
  beBytesOfSize 8 t

/-- The messages.RequestOptions record CreateMessage populates; the
Message3Part2Length field is commented out in the source and stays the
zero (absent) value. -/
structure RequestOptions where
  NetworkID : List Nat
  ProtocolVersion : List Nat
  PaddingLength : List Nat
  Message3Part2Length : Option (List Nat)
  Timestamp : List Nat
deriving DecidableEq

/-- SessionRequestProcessor.CreateMessage (options part): netId is
NewIntegerFromInt(2, 1), version is NewIntegerFromInt(2, 1), paddingLen
is NewInteger over the single byte holding the padding's length, the
message-3-part-2 length is left unset, and the timestamp is
DateFromTime of the current time. The padding length padLen is the
random draw below 16 and t the current time. -/
def createSessionRequestOptions (padLen t : Nat) : RequestOptions :=
  { NetworkID := newIntegerFromInt 2 1
    ProtocolVersion := newIntegerFromInt 2 1
    PaddingLength := newIntegerFromBytes [padLen % 256] 1
    Message3Part2Length := none
    Timestamp := dateFromTime t }

/-- C7 as stated fails on the code: at padding length 5 and time 0,
CreateMessage populates a one-byte network ID, a one-byte protocol
version, no reserved length field at all, and an eight-byte timestamp —
not the two-byte network ID, two-byte protocol version, two-byte
reserved length and four-byte timestamp the claim gives. -/
theorem createSessionRequestOptions_widths_counterexample :
    (createSessionRequestOptions 5 0).NetworkID.length ≠ 2 ∧
    (createSessionRequestOptions 5 0).ProtocolVersion.length ≠ 2 ∧
    (createSessionRequestOptions 5 0).Message3Part2Length = none ∧
    (createSessionRequestOptions 5 0).Timestamp.length ≠ 4 := by decide

/-- C7 amended. The options CreateMessage populates are, in order: a
one-byte network ID with value 2, a one-byte protocol version with value
2, a one-byte padding length equal to the padding's length, no reserved
length for the later message part (the field stays unset), and an
eight-byte big-endian timestamp. -/
theorem createSessionRequestOptions_layout (padLen t : Nat) (hp : padLen < 16) :
    (createSessionRequestOptions padLen t).NetworkID = [2] ∧
    (createSessionRequestOptions padLen t).ProtocolVersion = [2] ∧
    (createSessionRequestOptions padLen t).PaddingLength = [padLen] ∧
    (createSessionRequestOptions padLen t).Message3Part2Length = none ∧
    (createSessionRequestOptions padLen t).Timestamp = beBytesOfSize 8 t ∧
    (createSessionRequestOptions padLen t).Timestamp.length = 8 := by
  refine ⟨rfl, rfl, ?_, rfl, rfl, beBytesOfSize_length 8 t⟩
  simp only [createSessionRequestOptions, newIntegerFromBytes, List.take_succ_cons,
    List.take_zero]
  rw [Nat.mod_eq_of_lt (by omega)]

/-- Witness for the amended C7 at padding length 5 and time 258. -/
theorem createSessionRequestOptions_layout_witness :
    5 < 16 ∧
    ((createSessionRequestOptions 5 258).NetworkID = [2] ∧
     (createSessionRequestOptions 5 258).ProtocolVersion = [2] ∧
     (createSessionRequestOptions 5 258).PaddingLength = [5] ∧
     (createSessionRequestOptions 5 258).Message3Part2Length = none ∧
     (createSessionRequestOptions 5 258).Timestamp = beBytesOfSize 8 258 ∧
     (createSessionRequestOptions 5 258).Timestamp.length = 8) :=
  ⟨by decide, createSessionRequestOptions_layout 5 258 (by decide)⟩

end GoI2P
